import Mathlib

/-!
Verification development for the talk-to-me speech-to-text core
(`src-tauri/src/audio/processing.rs`, `src-tauri/src/engine/onnx_stt.rs`,
`src-tauri/src/commands/stt.rs`, `src-tauri/src/state.rs`).

Modelling conventions:
* Rust `f32` sample/logit values are modelled as exact rationals (`ℚ`).
  Transcendental `f32` operations (`sqrt`, `cos`, `ln`, `log10`, `powf`) and
  the in-place FFT have no exact rational counterpart; they are passed in as
  explicit function parameters, so every theorem below quantifies over all
  possible behaviours of these numeric kernels.  None of the verified claims
  depend on the values these kernels produce.
* Rust `String` values are modelled as `List Char`; `str::trim`,
  `String::pop`, `str::ends_with(char)` and `str::replace(char, str)` are
  modelled by the executable helpers below.  `char::is_whitespace` and
  `char::is_lowercase` are modelled by Lean's ASCII `Char.isWhitespace` /
  `Char.isLower`; the verified inputs are ASCII.
* Rust `usize` arithmetic is modelled by `ℕ` (no overflow is reachable for
  the quantities involved) and `Vec` indexing by total `getD` access guarded
  by the same bounds checks the source performs.
-/

/-- Model of Rust `str::trim`: drop whitespace from both ends. -/
def rustTrim (s : List Char) : List Char :=
  ((s.dropWhile Char.isWhitespace).reverse.dropWhile Char.isWhitespace).reverse

/-- Model of Rust `str::replace('▁', " ")` where the pattern is the
single word-boundary marker character: replace each occurrence by a space. -/
def replaceWordBoundary (s : List Char) : List Char :=
  s.map (fun c => if c = '▁' then ' ' else c)

/-- `ChunkBoundary` from `audio/processing.rs`: a half-open sample range. -/
structure ChunkBoundary where
  start_sample : ℕ
  end_sample : ℕ
deriving DecidableEq

/-- RMS of one analysis window, from the `rms_values` computation in
`split_at_silence` (processing.rs lines 34-41): sum of squares over
`samples[start..end]` divided by the window length, then `sqrt`.  The `f32`
square root is the explicit parameter `sqrtA`. -/
def rmsValue (sqrtA : ℚ → ℚ) (samples : List ℚ) (rmsWin total : ℕ) (i : ℕ) : ℚ :=
  let start := i * rmsWin
  let e := min (start + rmsWin) total
  let seg := (samples.drop start).take (e - start)
  sqrtA ((seg.map (fun s => s * s)).sum / ((e - start : ℕ) : ℚ))

/-- The argmin search `for w in win_lo..win_hi { if rms_values[w] < best_rms
{ ... } }` (processing.rs lines 64-71).  `best_rms` starts at `f32::MAX`,
modelled as `none` (every window value beats the sentinel, matching `f32`
behaviour for all values below `f32::MAX`); ties keep the first (lowest)
index because the update uses a strict `<`. -/
def findBestWin (rmsValues : ℕ → ℚ) (winLo winHi : ℕ) : ℕ :=
  ((List.range' winLo (winHi - winLo)).foldl
    (fun best w =>
      match best.2 with
      | none => (w, some (rmsValues w))
      | some b => if rmsValues w < b then (w, some (rmsValues w)) else best)
    (winLo, (none : Option ℚ))).1

/-- The `while chunk_start < total_samples` loop of `split_at_silence`
(processing.rs lines 49-78), written with explicit fuel (the source loop has
no fuel; `split_loop_covers` below proves that `total` units of fuel are
never exhausted, i.e. that the source loop terminates).  All sample counts
(`target`, `search`, `rmsWin`, `maxChunk`) are the `usize` values the source
computes from its `f32` second/millisecond parameters. -/
def split_loop (total target search rmsWin maxChunk numWindows : ℕ)
    (rmsValues : ℕ → ℚ) : ℕ → ℕ → List ChunkBoundary
  | 0, _ => []
  | fuel + 1, chunk_start =>
    if chunk_start < total then
      let remaining := total - chunk_start
      if remaining ≤ maxChunk then
        [⟨chunk_start, total⟩]
      else
        let ideal_cut := chunk_start + target
        let search_lo := ideal_cut - search
        let search_hi := min (ideal_cut + search) total
        let win_lo := search_lo / rmsWin
        let win_hi := min (search_hi / rmsWin) numWindows
        let best_win := findBestWin rmsValues win_lo win_hi
        let cut_sample := min (best_win * rmsWin + rmsWin / 2) total
        ⟨chunk_start, cut_sample⟩ ::
          split_loop total target search rmsWin maxChunk numWindows rmsValues fuel cut_sample
    else []

/-- `split_at_silence` from processing.rs lines 15-81.  The sample-count
parameters are the `usize` values the source derives from its `f32`
arguments: `target_samples = (target_duration_s * sample_rate) as usize`,
`search_samples = (search_window_s * sample_rate) as usize`,
`rms_window_samples = ((rms_window_ms / 1000) * sample_rate) as usize`,
`max_chunk_samples = ((target_duration_s + search_window_s) * sample_rate)
as usize` (all exact for the streaming call sites: 320000, 32000, 1600,
352000 at 16 kHz). -/
def split_at_silence (sqrtA : ℚ → ℚ) (samples : List ℚ)
    (target_samples search_samples rms_window_samples max_chunk_samples : ℕ) :
    List ChunkBoundary :=
  let total := samples.length
  if total ≤ max_chunk_samples then
    [⟨0, total⟩]
  else
    let rmsWin := max rms_window_samples 1
    let numWindows := total / rmsWin
    split_loop total target_samples search_samples rmsWin max_chunk_samples numWindows
      (rmsValue sqrtA samples rmsWin total) total 0

/-- `chunksCover lo hi cs` holds when the chunk list `cs` starts at `lo`,
is contiguous (each end equals the next start), strictly ascending (each
chunk is non-empty), and ends exactly at `hi`. -/
def chunksCover (lo hi : ℕ) : List ChunkBoundary → Bool
  | [] => lo == hi
  | c :: rest =>
    (c.start_sample == lo) && Nat.blt lo c.end_sample && chunksCover c.end_sample hi rest

/-- `MelConfig` from processing.rs lines 123-134 (`f32` fields as `ℚ`). -/
structure MelConfig where
  sample_rate : ℕ
  n_fft : ℕ
  hop_length : ℕ
  win_length : ℕ
  n_mels : ℕ
  fmin : ℚ
  fmax : ℚ
  log_scale : Bool
  normalize_per_feature : Bool

/-- `MelConfig::default()` from processing.rs lines 136-150. -/
def melConfigDefault : MelConfig :=
  { sample_rate := 16000, n_fft := 512, hop_length := 160, win_length := 400,
    n_mels := 80, fmin := 0, fmax := 0, log_scale := true, normalize_per_feature := true }

/-- The `f32` numeric kernels used by the mel pipeline, passed as explicit
parameters: `cos`/`sqrt`/`ln`/`log10`, `10f32.powf` (`pow10`), the constant
`std::f32::consts::PI` (`pi`), and the in-place radix-2 FFT over the
interleaved re/im buffer (`fft buf n`, modelling `fft_in_place`; it is only
ever applied to buffers of length `2 * n_fft`, and no verified claim depends
on the bin values it produces). -/
structure F32Ops where
  cos : ℚ → ℚ
  sqrt : ℚ → ℚ
  ln : ℚ → ℚ
  log10 : ℚ → ℚ
  pow10 : ℚ → ℚ
  pi : ℚ
  fft : List ℚ → ℕ → List ℚ

/-- A trivial concrete instantiation of the numeric kernels, used only to
instantiate universally quantified theorems at concrete inputs. -/
def f32OpsTrivial : F32Ops :=
  { cos := fun _ => 0, sqrt := fun _ => 0, ln := fun _ => 0, log10 := fun _ => 0,
    pow10 := fun _ => 0, pi := 0, fft := fun buf _ => buf }

/-- `reflect_pad` from processing.rs lines 288-309: `pad_len` reflected
samples on each side (degenerate cases clamp to the edge sample), zeros when
the input is empty. -/
def reflect_pad (samples : List ℚ) (pad_len : ℕ) : List ℚ :=
  let n := samples.length
  if n = 0 then
    List.replicate (pad_len * 2) 0
  else
    ((List.range' 1 pad_len).reverse.map
      (fun i => samples.getD (if i < n then i else n - 1) 0))
    ++ samples
    ++ (List.range' 1 pad_len).map
      (fun i => samples.getD (if i + 1 < n then n - 1 - i else 0) 0)

/-- `hann_window` from processing.rs lines 282-286. -/
def hann_window (ops : F32Ops) (length : ℕ) : List ℚ :=
  (List.range length).map
    (fun i => 1/2 * (1 - ops.cos (2 * ops.pi * (i : ℚ) / (length : ℚ))))

/-- `build_mel_filterbank` from processing.rs lines 240-280: triangular
filters over HTK-mel-spaced points, flattened row-major
`[n_mels × n_freq_bins]`. -/
def build_mel_filterbank (ops : F32Ops) (n_mels n_freq_bins : ℕ)
    (sample_rate fmin fmax : ℚ) : List ℚ :=
  let hz_to_mel := fun (hz : ℚ) => 2595 * ops.log10 (1 + hz / 700)
  let mel_to_hz := fun (mel : ℚ) => 700 * (ops.pow10 (mel / 2595) - 1)
  let mel_min := hz_to_mel fmin
  let mel_max := hz_to_mel fmax
  let mel_points := (List.range (n_mels + 2)).map
    (fun i => mel_min + (mel_max - mel_min) * (i : ℚ) / ((n_mels + 1 : ℕ) : ℚ))
  let hz_points := mel_points.map mel_to_hz
  let bin_points := hz_points.map
    (fun hz => hz * ((n_freq_bins : ℚ) - 1) * 2 / sample_rate)
  (List.range n_mels).flatMap (fun m =>
    let f_left := bin_points.getD m 0
    let f_center := bin_points.getD (m + 1) 0
    let f_right := bin_points.getD (m + 2) 0
    (List.range n_freq_bins).map (fun k =>
      let kf : ℚ := (k : ℚ)
      if f_left ≤ kf ∧ kf ≤ f_center then
        if |f_center - f_left| < 1/1000000 then 0 else (kf - f_left) / (f_center - f_left)
      else if f_center < kf ∧ kf ≤ f_right then
        if |f_right - f_center| < 1/1000000 then 0 else (f_right - kf) / (f_right - f_center)
      else 0))

/-- The windowed FFT input buffer for one frame (processing.rs lines
180-186): interleaved `[re, im]` of length `2 * n_fft`, real slots `i <
min(win_length, n_fft)` holding `padded[start+i] * window[i]` (zero when the
sample index is out of range), everything else zero. -/
def melFftBuf (padded window : List ℚ) (n_fft win_length start : ℕ) : List ℚ :=
  (List.range n_fft).flatMap (fun i =>
    [if i < min win_length n_fft then
        (if start + i < padded.length then padded.getD (start + i) 0 else 0) * window.getD i 0
      else 0,
     0])

/-- The mel-band energy accumulation for one frame and one mel row
(processing.rs lines 190-200). -/
def melEnergy (mel_bank fft_out : List ℚ) (n_freq_bins mel_idx : ℕ) : ℚ :=
  (List.range n_freq_bins).foldl (fun energy k =>
    let weight := mel_bank.getD (mel_idx * n_freq_bins + k) 0
    if 0 < weight then
      let re := fft_out.getD (k * 2) 0
      let im := fft_out.getD (k * 2 + 1) 0
      energy + weight * (re * re + im * im)
    else energy) 0

/-- One iteration of the frame loop of `mel_spectrogram` (processing.rs
lines 177-203): build the windowed FFT buffer, run the FFT, and write the
`n_mels` energies of this frame into the flat spectrogram at
`mel_idx * n_frames + frame_idx`. -/
def melProcessFrame (ops : F32Ops) (padded window mel_bank : List ℚ)
    (n_fft win_length hop_length n_mels n_frames n_freq_bins : ℕ)
    (ms : Array ℚ) (frame_idx : ℕ) : Array ℚ :=
  let start := frame_idx * hop_length
  let fft_out := ops.fft (melFftBuf padded window n_fft win_length start) n_fft
  (List.range n_mels).foldl (fun a mel_idx =>
    a.setD (mel_idx * n_frames + frame_idx) (melEnergy mel_bank fft_out n_freq_bins mel_idx)) ms

/-- One row of the per-feature normalization of `mel_spectrogram`
(processing.rs lines 212-225): zero mean, unit variance with the
`std ≥ 1e-5` floor, reads of the row preceding the writes. -/
def melNormalizeRow (sqrtA : ℚ → ℚ) (n_frames : ℕ) (ms : Array ℚ) (mel_idx : ℕ) : Array ℚ :=
  let row_start := mel_idx * n_frames
  let mean := ((List.range n_frames).map (fun f => ms.getD (row_start + f) 0)).sum
    / ((n_frames : ℕ) : ℚ)
  let variance := ((List.range n_frames).map (fun f =>
    (ms.getD (row_start + f) 0 - mean) * (ms.getD (row_start + f) 0 - mean))).sum
    / ((n_frames : ℕ) : ℚ)
  let std_dev := max (sqrtA variance) (1/100000)
  (List.range n_frames).foldl (fun a f =>
    a.setD (row_start + f) ((a.getD (row_start + f) 0 - mean) / std_dev)) ms

/-- `mel_spectrogram` from processing.rs lines 153-228: flat row-major
`[n_mels × n_frames]` spectrogram (as an `Array ℚ`, modelling the returned
`Vec<f32>`).  The `1e-10` log floor and `1e-5` variance floor are the exact
rationals for the source's `f32` literals' intended values. -/
def mel_spectrogram (ops : F32Ops) (samples : List ℚ) (config : MelConfig) : Array ℚ :=
  let fmax := if config.fmax ≤ 0 then (config.sample_rate : ℚ) / 2 else config.fmax
  let n_freq_bins := config.n_fft / 2 + 1
  let mel_bank := build_mel_filterbank ops config.n_mels n_freq_bins
    (config.sample_rate : ℚ) config.fmin fmax
  let window := hann_window ops config.win_length
  let pad_len := config.n_fft / 2
  let padded := reflect_pad samples pad_len
  let n_frames := if config.n_fft ≤ padded.length then
    (padded.length - config.n_fft) / config.hop_length + 1 else 0
  let mel_spec := Array.mkArray (config.n_mels * n_frames) (0 : ℚ)
  let mel_spec := (List.range n_frames).foldl
    (melProcessFrame ops padded window mel_bank config.n_fft config.win_length
      config.hop_length config.n_mels n_frames n_freq_bins) mel_spec
  let mel_spec := if config.log_scale then
    mel_spec.map (fun v => ops.ln (v + 1/10000000000)) else mel_spec
  if config.normalize_per_feature ∧ 1 < n_frames then
    (List.range config.n_mels).foldl (melNormalizeRow ops.sqrt n_frames) mel_spec
  else mel_spec

/-- `mel_num_frames` from processing.rs lines 230-238. -/
def mel_num_frames (num_samples : ℕ) (config : MelConfig) : ℕ :=
  let pad_len := config.n_fft / 2
  let padded_len := num_samples + 2 * pad_len
  if config.n_fft ≤ padded_len then
    (padded_len - config.n_fft) / config.hop_length + 1
  else 0

/-- `Vocabulary` from onnx_stt.rs lines 11-18: dense token table, blank id,
and the vocabulary size both decoders use to slice logits. -/
structure Vocabulary where
  tokens : List (List Char)
  blank_id : ℕ
  vocab_size : ℕ
deriving DecidableEq

/-- Inner loop of the arg-max used by both decoders: fold of Rust's
`Iterator::max_by` over `enumerate()`, which keeps the LAST maximal element
(the accumulator is replaced whenever the current value is ≥ the best so
far).  `partial_cmp(..).unwrap_or(Equal)` is total on the rational model
(no NaN). -/
def argmaxGo (best : ℕ) (bestVal : ℚ) (i : ℕ) : List ℚ → ℕ
  | [] => best
  | x :: rest =>
    if bestVal ≤ x then argmaxGo i x (i + 1) rest else argmaxGo best bestVal (i + 1) rest

/-- `iter().enumerate().max_by(..).map(|(i, _)| i).unwrap_or(d)`: index of
the last maximum of the list, or the default `d` when the list is empty. -/
def argmaxLast (d : ℕ) : List ℚ → ℕ
  | [] => d
  | x :: rest => argmaxGo 0 x 1 rest

/-- The frame loop of `ctc_decode` (onnx_stt.rs lines 186-212), consuming
`vocab_size` logits per step.  The source indexes frame `t` as
`logits[t * vocab_size .. (t + 1) * vocab_size]` and breaks when
`frame_end > logits.len()`; consuming `vocab_size` values per step from the
front is the same access pattern (`take`/`drop` after `t` full frames are
exactly that slice), and the break condition becomes
`vocab_size > remaining`.  `prev_token` is set before the
`token_id < tokens.len()` push guard, exactly as in the source. -/
def ctc_go (vocab : Vocabulary) (vocab_size : ℕ) :
    Option ℕ → List ℚ → ℕ → List (List Char)
  | _, _, 0 => []
  | prev, logits, steps + 1 =>
    if vocab_size ≤ logits.length then
      let frame := logits.take vocab_size
      let token_id := argmaxLast vocab.blank_id frame
      if token_id = vocab.blank_id then
        ctc_go vocab vocab_size none (logits.drop vocab_size) steps
      else if some token_id = prev then
        ctc_go vocab vocab_size prev (logits.drop vocab_size) steps
      else
        (if token_id < vocab.tokens.length then [vocab.tokens.getD token_id []] else [])
          ++ ctc_go vocab vocab_size (some token_id) (logits.drop vocab_size) steps
    else []

/-- `ctc_decode` from onnx_stt.rs lines 182-216: greedy arg-max per frame,
blank skipping with repeat-tracking reset, collapse of immediate repeats,
join, word-boundary replacement, trim. -/
def ctc_decode (logits : List ℚ) (time_steps vocab_size : ℕ) (vocab : Vocabulary) :
    List Char :=
  rustTrim (replaceWordBoundary ((ctc_go vocab vocab_size none logits time_steps).flatten))

/-- The collapse step of the CTC description in the spec (§4.4), on the
per-frame arg-max ids: skip blanks (resetting repeat tracking), drop a
non-blank id only when it immediately repeats the previous one. -/
def ctcCollapse (blank : ℕ) : Option ℕ → List ℕ → List ℕ
  | _, [] => []
  | prev, id :: rest =>
    if id = blank then ctcCollapse blank none rest
    else if some id = prev then ctcCollapse blank prev rest
    else id :: ctcCollapse blank (some id) rest

/-- The decoder described by the spec's words (§4.4 CTC greedy), used as the
reference side of the refinement claims: per-frame arg-max, blank skipping
and repeat collapse via `ctcCollapse`, token lookup, concatenation,
word-boundary replacement, trim. -/
def ctcDecodeSpec (frames : List (List ℚ)) (vocab : Vocabulary) : List Char :=
  rustTrim (replaceWordBoundary
    (((ctcCollapse vocab.blank_id none
        (frames.map (argmaxLast vocab.blank_id))).map
      (fun id => vocab.tokens.getD id [])).flatten))

/-- Repeat-tracking state after processing a list of arg-max ids: blanks
reset it to `none`, non-blank ids set it. -/
def stateAfter (blank : ℕ) : Option ℕ → List ℕ → Option ℕ
  | prev, [] => prev
  | _, id :: rest => stateAfter blank (if id = blank then none else some id) rest

/-- A fixed concrete vocabulary used for counterexamples and witnesses:
tokens `a`, `b` and a final blank (id 2). -/
def vocabAB : Vocabulary := ⟨[['a'], ['b'], ['x']], 2, 3⟩

/-- Token arg-max of one TDT decode step (onnx_stt.rs lines 353-372):
arg-max over the first `vocab_size` logits, blank when empty. -/
def tdtToken (vocab : Vocabulary) (logits : List ℚ) : ℕ :=
  argmaxLast vocab.blank_id (logits.take vocab.vocab_size)

/-- The duration-logits slice of one TDT decode step (onnx_stt.rs lines
360-365): the 5 entries after the vocabulary slice, or empty when the
output has no duration head. -/
def tdtDurationLogits (vocab : Vocabulary) (logits : List ℚ) : List ℚ :=
  if vocab.vocab_size + 5 ≤ logits.length then (logits.drop vocab.vocab_size).take 5 else []

/-- Duration arg-max of one TDT decode step (onnx_stt.rs lines 375-383):
0 when no duration head is present. -/
def tdtStep (vocab : Vocabulary) (logits : List ℚ) : ℕ :=
  if (tdtDurationLogits vocab logits).isEmpty then 0
  else argmaxLast 0 (tdtDurationLogits vocab logits)

/-- The emission guard of one TDT decode step (onnx_stt.rs line 386):
non-blank token within the token table. -/
def tdtEmit (vocab : Vocabulary) (logits : List ℚ) : Bool :=
  decide (tdtToken vocab logits ≠ vocab.blank_id
    ∧ tdtToken vocab logits < vocab.tokens.length)

/-- The `while t < encoded_length` loop of `tdt_decode` (onnx_stt.rs lines
255-404), with explicit fuel (the source loop has no fuel;
`tdt_go_terminates` below proves the chosen fuel is never exhausted, i.e.
that the source loop terminates).  The `decoder_session.run` call is
modelled by the oracle `oracle k`, giving the flat `outputs` logits of the
`k`-th decoder invocation; indexing by invocation count subsumes every
possible dependence of the real session on its inputs (previous token and
recurrent state), so the theorems quantify over every sequence of
decoder-step outputs.  The recurrent state tensors influence only the
oracle's inputs and are not tracked.  Constants from the source:
`max_tokens_per_step = 10`, `num_tdt_durations = 5`. -/
def tdt_go (oracle : ℕ → List ℚ) (encoder_out : List ℚ)
    (encoded_length encoder_dim : ℕ) (vocab : Vocabulary) :
    ℕ → ℕ → ℕ → ℕ → List (List Char) → Option (List (List Char) × ℕ)
  | 0, _, _, _, _ => none
  | fuel + 1, k, t, emitted_this_step, result_tokens =>
    if t < encoded_length then
      if t * encoder_dim + encoder_dim ≤ encoder_out.length then
        let logits := oracle k
        if vocab.vocab_size ≤ logits.length then
          let token_id := tdtToken vocab logits
          let step := tdtStep vocab logits
          let acc2 := if tdtEmit vocab logits then
            result_tokens ++ [vocab.tokens.getD token_id []] else result_tokens
          let emitted2 := if tdtEmit vocab logits then
            emitted_this_step + 1 else emitted_this_step
          if 0 < step then
            tdt_go oracle encoder_out encoded_length encoder_dim vocab fuel
              (k + 1) (t + step) 0 acc2
          else if token_id = vocab.blank_id ∨ 10 ≤ emitted2 then
            tdt_go oracle encoder_out encoded_length encoder_dim vocab fuel
              (k + 1) (t + 1) 0 acc2
          else
            tdt_go oracle encoder_out encoded_length encoder_dim vocab fuel
              (k + 1) t emitted2 acc2
        else some (result_tokens, t)
      else some (result_tokens, t)
    else some (result_tokens, t)

/-- `tdt_decode` from onnx_stt.rs lines 227-408: run the decode loop from
frame 0, then join, word-boundary-replace and trim the emitted tokens.
`none` models a non-terminating source loop (never reached:
`tdt_decode_terminates`); `some` models the source's `Ok` result (the
decoder-session oracle is total, and every `break` path of the source
returns `Ok` with the tokens emitted so far). -/
def tdt_decode (oracle : ℕ → List ℚ) (encoder_out : List ℚ)
    (encoded_length encoder_dim : ℕ) (vocab : Vocabulary) : Option (List Char) :=
  (tdt_go oracle encoder_out encoded_length encoder_dim vocab
    (11 * encoded_length + 11) 0 0 0 []).map
    (fun r => rustTrim (replaceWordBoundary r.1.flatten))

/-- `append_chunk_text` from commands/stt.rs lines 21-42: trim the new
chunk; empty chunks leave the accumulator unchanged; an empty accumulator
just receives the chunk; otherwise drop a trailing sentence-ending `.`,
`!` or `?` when the chunk starts with a lowercase letter, then append a
single space and the chunk. -/
def append_chunk_text (accumulated : List Char) (new_chunk : List Char) : List Char :=
  let nc := rustTrim new_chunk
  if nc.isEmpty then accumulated
  else if accumulated.isEmpty then accumulated ++ nc
  else
    let next_starts_lowercase : Bool :=
      match nc.head? with
      | some c => c.isLower
      | none => false
    let prev_ends_with_sentence_punct : Bool :=
      (accumulated.getLast? == some '.') || (accumulated.getLast? == some '!')
        || (accumulated.getLast? == some '?')
    let base := if prev_ends_with_sentence_punct && next_starts_lowercase then
      accumulated.dropLast else accumulated
    base ++ ' ' :: nc

/-- `AppStatus` from state.rs lines 13-20. -/
inductive AppStatus where
  | Idle
  | Loading
  | Recording
  | Transcribing
  | Synthesizing
  | Playing
deriving DecidableEq

/-- The status transition performed by `do_start_recording` (commands/stt.rs
lines 61-78) under the status lock: a non-Idle status bails with an error
(the source formats the current status into the message) and leaves the
status unchanged; an Idle status starts capture and becomes Recording.
Capture construction and the spawned monitor/streaming threads are external
effects beyond the guarded transition modelled here. -/
def do_start_recording (status : AppStatus) : Except (List Char) AppStatus :=
  if status ≠ AppStatus.Idle then
    Except.error "Cannot start recording: app is not idle".data
  else
    Except.ok AppStatus.Recording

/-- Index of the last space in a line, modelling `str::rfind(' ')`. -/
def rfindSpace (line : List Char) : Option ℕ :=
  match line.reverse.findIdx? (fun c => c = ' ') with
  | some j => some (line.length - 1 - j)
  | none => none

/-- Model of `str::parse::<usize>()`: an optional leading `+`, then at
least one ASCII digit (overflow is not modelled; no verified property
depends on parses near `usize::MAX`). -/
def parseUsize (s : List Char) : Option ℕ :=
  let digits := if s.head? = some '+' then s.tail else s
  if digits.isEmpty then none
  else if digits.all Char.isDigit then
    some (digits.foldl (fun n c => n * 10 + (c.toNat - 48)) 0)
  else none

/-- Stable insertion of a keyed pair into an ascending-by-key list: the new
pair goes after every existing pair with key ≤ its key. -/
def insertSorted {α : Type} (p : α × ℕ) : List (α × ℕ) → List (α × ℕ)
  | [] => [p]
  | q :: rest => if q.2 ≤ p.2 then q :: insertSorted p rest else p :: q :: rest

/-- Model of Rust's stable `sort_by_key` on `(value, key)` pairs (insertion
sort; every stable comparison sort computes the same list: ascending keys,
ties in original order). -/
def sortByKey {α : Type} (l : List (α × ℕ)) : List (α × ℕ) :=
  l.foldl (fun acc p => insertSorted p acc) []

/-- `load_vocab_txt` from onnx_stt.rs lines 70-114, taking the list of
lines of the file (the source iterates `data.lines()`): parse
`token id` pairs (last space separates token from id), bail on no pairs,
sort by id, build the dense table of size `max_id + 1`, and set
`blank_id = tokens.len() - 1`, `vocab_size = tokens.len()`.  `None` models
the source's error return. -/
def load_vocab_txt (lines : List (List Char)) : Option Vocabulary :=
  let pairs := lines.foldl (fun acc line =>
    let line := rustTrim line
    if line.isEmpty then acc
    else
      match rfindSpace line with
      | none => acc
      | some last_space =>
        match parseUsize (line.drop (last_space + 1)) with
        | some id => acc ++ [(line.take last_space, id)]
        | none => acc) []
  if pairs.isEmpty then none
  else
    let sorted := sortByKey pairs
    let max_id := ((sorted.getLast?).map Prod.snd).getD 0
    let tokens0 := List.replicate (max_id + 1) ([] : List Char)
    let tokens := sorted.foldl (fun tks p =>
      if p.2 < tks.length then tks.set p.2 p.1 else tks) tokens0
    some ⟨tokens, tokens.length - 1, tokens.length⟩

/-- Model of `serde_json::Value` as far as `load_tokenizer_json` inspects
it (numbers as integers: `as_u64` succeeds exactly on non-negative integral
values, and the vocabulary ids the loader reads are such values). -/
inductive Json where
  | null : Json
  | bool : Bool → Json
  | num : Int → Json
  | str : List Char → Json
  | arr : List Json → Json
  | obj : List (List Char × Json) → Json

/-- `Value::get(key)` on an object: first entry with the given key. -/
def jsonGet (j : Json) (key : List Char) : Option Json :=
  match j with
  | Json.obj kvs => (kvs.find? (fun kv => kv.1 == key)).map Prod.snd
  | _ => none

/-- `Value::as_array`. -/
def jsonAsArr : Json → Option (List Json)
  | Json.arr a => some a
  | _ => none

/-- `Value::as_object` (entries in document order). -/
def jsonAsObj : Json → Option (List (List Char × Json))
  | Json.obj o => some o
  | _ => none

/-- `Value::as_str`. -/
def jsonAsStr : Json → Option (List Char)
  | Json.str s => some s
  | _ => none

/-- `Value::as_u64`. -/
def jsonAsU64 : Json → Option ℕ
  | Json.num n => if 0 ≤ n then some n.toNat else none
  | _ => none

/-- The map branch shared by both lookups in `load_tokenizer_json`
(onnx_stt.rs lines 139-143 and 152-156): keep entries whose value is a
`u64`, sort by id, take the keys. -/
def tokensFromVocabMap (kvs : List (List Char × Json)) : List (List Char) :=
  (sortByKey (kvs.filterMap (fun kv => (jsonAsU64 kv.2).map (fun id => (kv.1, id))))).map
    Prod.fst

/-- The `model.vocab` lookup of `load_tokenizer_json` (onnx_stt.rs lines
126-146): an array of strings or `[string, ...]` pairs, or an id map. -/
def tokenizerTokensPrimary (json : Json) : List (List Char) :=
  match jsonGet json "model".data with
  | some model =>
    match jsonGet model "vocab".data with
    | some vocab =>
      match jsonAsArr vocab with
      | some vocab_arr =>
        vocab_arr.filterMap (fun entry =>
          match jsonAsStr entry with
          | some s => some s
          | none =>
            match jsonAsArr entry with
            | some pair =>
              match pair.head? with
              | some v => jsonAsStr v
              | none => none
            | none => none)
      | none =>
        match jsonAsObj vocab with
        | some vocab_map => tokensFromVocabMap vocab_map
        | none => []
    | none => []
  | none => []

/-- The top-level `vocab` fallback of `load_tokenizer_json` (onnx_stt.rs
lines 149-159). -/
def tokenizerTokensFallback (json : Json) : List (List Char) :=
  match jsonGet json "vocab".data with
  | some vocab =>
    match jsonAsObj vocab with
    | some vocab_map => tokensFromVocabMap vocab_map
    | none => []
  | none => []

/-- `load_tokenizer_json` from onnx_stt.rs lines 117-170, taking the parsed
JSON document: try `model.vocab`, fall back to a top-level `vocab` map when
that produced nothing, bail on an empty token list; `blank_id =
tokens.len() - 1`, `vocab_size = tokens.len()`. -/
def load_tokenizer_json (json : Json) : Option Vocabulary :=
  let t1 := tokenizerTokensPrimary json
  let tokens := if t1.isEmpty then tokenizerTokensFallback json else t1
  if tokens.isEmpty then none
  else some ⟨tokens, tokens.length - 1, tokens.length⟩

/-- The loop exits immediately once the cursor reaches the end. -/
theorem split_loop_at_end (total target search rmsWin maxChunk numWindows : ℕ)
    (rmsValues : ℕ → ℚ) (fuel cs : ℕ) (h : ¬ cs < total) :
    split_loop total target search rmsWin maxChunk numWindows rmsValues fuel cs = [] := by
  cases fuel with
  | zero => rfl
  | succ n => simp [split_loop, h]

/-- The argmin search never returns an index below the lower bound. -/
theorem findBestWin_ge (rmsValues : ℕ → ℚ) (winLo winHi : ℕ) :
    winLo ≤ findBestWin rmsValues winLo winHi := by
  unfold findBestWin
  have key : ∀ (l : List ℕ) (acc : ℕ × Option ℚ), winLo ≤ acc.1 →
      (∀ w ∈ l, winLo ≤ w) →
      winLo ≤ (l.foldl
        (fun best w =>
          match best.2 with
          | none => (w, some (rmsValues w))
          | some b => if rmsValues w < b then (w, some (rmsValues w)) else best)
        acc).1 := by
    intro l
    induction l with
    | nil => intro acc hacc _; exact hacc
    | cons x xs ih =>
      intro acc hacc hmem
      have hx : winLo ≤ x := hmem x (List.mem_cons_self x xs)
      have hxs : ∀ w ∈ xs, winLo ≤ w := fun w hw => hmem w (List.mem_cons_of_mem x hw)
      simp only [List.foldl_cons]
      apply ih
      · cases hacc2 : acc.2 with
        | none => simpa [hacc2] using hx
        | some b =>
          by_cases hlt : rmsValues x < b
          · simpa [hacc2, hlt] using hx
          · simpa [hacc2, hlt] using hacc
      · exact hxs
  apply key
  · exact Nat.le_refl winLo
  · intro w hw
    exact (List.mem_range'_1.mp hw).1

/-- In the splitting branch the chosen cut strictly advances the cursor:
this is the progress fact that makes the source `while` loop terminate. -/
theorem cut_progress (total target search rmsWin cs : ℕ)
    (hrms : 1 ≤ rmsWin) (hts : search + rmsWin ≤ target)
    (hcs : cs < total) (rmsValues : ℕ → ℚ) (winHi : ℕ) :
    cs < min (findBestWin rmsValues ((cs + target - search) / rmsWin) winHi * rmsWin
      + rmsWin / 2) total := by
  have hbest : (cs + target - search) / rmsWin ≤
      findBestWin rmsValues ((cs + target - search) / rmsWin) winHi :=
    findBestWin_ge _ _ _
  have hdm := Nat.div_add_mod (cs + target - search) rmsWin
  have hmod : (cs + target - search) % rmsWin < rmsWin := Nat.mod_lt _ hrms
  have h2 : rmsWin * ((cs + target - search) / rmsWin) ≤
      rmsWin * findBestWin rmsValues ((cs + target - search) / rmsWin) winHi :=
    Nat.mul_le_mul (Nat.le_refl rmsWin) hbest
  have hcomm := Nat.mul_comm
    (findBestWin rmsValues ((cs + target - search) / rmsWin) winHi) rmsWin
  refine lt_min ?_ hcs
  omega

/-- The splitting loop produces a contiguous, ascending, exhaustive cover of
`[cs, total)` whenever it is given at least `total - cs` fuel, the effective
RMS window is positive, and the target exceeds the search window by at least
one RMS window (satisfied by the streaming call sites: 320000 ≥ 32000 + 1600). -/
theorem split_loop_covers (total target search rmsWin maxChunk numWindows : ℕ)
    (rmsValues : ℕ → ℚ) (hrms : 1 ≤ rmsWin) (hts : search + rmsWin ≤ target) :
    ∀ fuel cs, cs < total → total - cs ≤ fuel →
      chunksCover cs total
        (split_loop total target search rmsWin maxChunk numWindows rmsValues fuel cs) = true := by
  intro fuel
  induction fuel with
  | zero => intro cs hcs hfuel; omega
  | succ n ih =>
    intro cs hcs hfuel
    rw [split_loop]
    simp only [hcs, if_true]
    by_cases hrem : total - cs ≤ maxChunk
    · simp only [hrem, if_true]
      simp [chunksCover, Nat.blt_eq, hcs]
    · simp only [hrem, if_false]
      have hcut : cs < min (findBestWin rmsValues ((cs + target - search) / rmsWin)
          (min (min (cs + target + search) total / rmsWin) numWindows) * rmsWin
          + rmsWin / 2) total :=
        cut_progress total target search rmsWin cs hrms hts hcs rmsValues _
      set cut := min (findBestWin rmsValues ((cs + target - search) / rmsWin)
          (min (min (cs + target + search) total / rmsWin) numWindows) * rmsWin
          + rmsWin / 2) total with hcutdef
      have hcutle : cut ≤ total := Nat.min_le_right _ _
      simp only [chunksCover, Nat.blt_eq]
      refine (Bool.and_eq_true _ _).mpr ⟨(Bool.and_eq_true _ _).mpr ⟨by simp, ?_⟩, ?_⟩
      · simpa using hcut
      · by_cases hcl : cut < total
        · exact ih cut hcl (by omega)
        · have hceq : cut = total := by omega
          rw [split_loop_at_end total target search rmsWin maxChunk numWindows rmsValues n cut
            (by omega)]
          simp [chunksCover, hceq]

/-- C1: for every sample buffer longer than `max_chunk_samples` (total
duration exceeds `target_duration + search_window`), `split_at_silence`
returns chunks that are ordered ascending, non-overlapping (each end is
strictly greater than its start), contiguous (each chunk's end equals the
next chunk's start), start at 0 and end at `samples.length` — i.e. they
exactly cover `[0, total_samples)` — for every sample contents (in
particular pure silence and pure signal) and every behaviour of the `f32`
square root.  The arithmetic side conditions are the ones the streaming call
sites satisfy (target 320000, search 32000, RMS window 1600 samples). -/
theorem split_at_silence_covers (sqrtA : ℚ → ℚ) (samples : List ℚ)
    (target_samples search_samples rms_window_samples max_chunk_samples : ℕ)
    (hlong : max_chunk_samples < samples.length)
    (hts : search_samples + max rms_window_samples 1 ≤ target_samples) :
    chunksCover 0 samples.length
      (split_at_silence sqrtA samples target_samples search_samples rms_window_samples
        max_chunk_samples) = true := by
  unfold split_at_silence
  simp only [Nat.not_le.mpr hlong, if_false]
  exact split_loop_covers samples.length target_samples search_samples
    (max rms_window_samples 1) max_chunk_samples
    (samples.length / max rms_window_samples 1)
    (rmsValue sqrtA samples (max rms_window_samples 1) samples.length)
    (Nat.le_max_right _ _) hts samples.length 0 (by omega) (by omega)

/-- Witness for C1 at a concrete input: an 11-sample buffer with target 5,
search 2, RMS window 1, max chunk 7. -/
theorem split_at_silence_covers_witness :
    chunksCover 0 (11 : ℕ)
      (split_at_silence (fun q => q) [1, 0, 1, 1, 0, 0, 1, 1, 1, 0, 1] 5 2 1 7) = true := by
  have h := split_at_silence_covers (fun q => q) [1, 0, 1, 1, 0, 0, 1, 1, 1, 0, 1]
    5 2 1 7 (by decide) (by decide)
  simpa using h

/-- C7: a buffer of at most `max_chunk_samples` samples (duration at most
`target_duration + search_window`) is returned as exactly one chunk spanning
the whole input — short inputs are never split. -/
theorem split_at_silence_short (sqrtA : ℚ → ℚ) (samples : List ℚ)
    (target_samples search_samples rms_window_samples max_chunk_samples : ℕ)
    (hshort : samples.length ≤ max_chunk_samples) :
    split_at_silence sqrtA samples target_samples search_samples rms_window_samples
      max_chunk_samples = [⟨0, samples.length⟩] := by
  unfold split_at_silence
  simp [hshort]

/-- Witness for C7 at a concrete input. -/
theorem split_at_silence_short_witness :
    split_at_silence (fun q => q) [1, 2, 3] 5 2 1 7 = [⟨0, 3⟩] := by
  have h := split_at_silence_short (fun q => q) [1, 2, 3] 5 2 1 7 (by decide)
  simpa using h

/-- Folding a size-preserving array update over a list preserves the size. -/
theorem foldl_size_eq {β : Type} (f : Array ℚ → β → Array ℚ)
    (h : ∀ a x, (f a x).size = a.size) :
    ∀ (l : List β) (a : Array ℚ), (l.foldl f a).size = a.size := by
  intro l
  induction l with
  | nil => intro a; rfl
  | cons x xs ih => intro a; rw [List.foldl_cons, ih, h]

/-- `reflect_pad` always adds exactly `pad_len` samples on each side. -/
theorem reflect_pad_length (samples : List ℚ) (pad_len : ℕ) :
    (reflect_pad samples pad_len).length = samples.length + 2 * pad_len := by
  simp only [reflect_pad]
  split
  · next h => rw [h, List.length_replicate]; omega
  · next h =>
    simp only [List.length_append, List.length_map, List.length_reverse, List.length_range']
    omega

/-- Writing one frame's energies preserves the spectrogram size. -/
theorem melProcessFrame_size (ops : F32Ops) (padded window mel_bank : List ℚ)
    (n_fft win_length hop_length n_mels n_frames n_freq_bins : ℕ)
    (ms : Array ℚ) (frame_idx : ℕ) :
    (melProcessFrame ops padded window mel_bank n_fft win_length hop_length
      n_mels n_frames n_freq_bins ms frame_idx).size = ms.size := by
  unfold melProcessFrame
  exact foldl_size_eq _ (fun a x => Array.size_setD _ _ _) _ _

/-- Normalizing one mel row preserves the spectrogram size. -/
theorem melNormalizeRow_size (sqrtA : ℚ → ℚ) (n_frames : ℕ)
    (ms : Array ℚ) (mel_idx : ℕ) :
    (melNormalizeRow sqrtA n_frames ms mel_idx).size = ms.size := by
  unfold melNormalizeRow
  exact foldl_size_eq _ (fun a x => Array.size_setD _ _ _) _ _

/-- The spectrogram has exactly `n_mels * mel_num_frames` entries, for every
input length, configuration and numeric-kernel behaviour. -/
theorem mel_spectrogram_size (ops : F32Ops) (samples : List ℚ) (config : MelConfig) :
    (mel_spectrogram ops samples config).size
      = config.n_mels * mel_num_frames samples.length config := by
  simp only [mel_spectrogram, mel_num_frames]
  rw [reflect_pad_length]
  have hfill : ∀ (mb : List ℚ) (nf : ℕ) (l : List ℕ),
      (l.foldl (melProcessFrame ops (reflect_pad samples (config.n_fft / 2))
        (hann_window ops config.win_length) mb
        config.n_fft config.win_length config.hop_length config.n_mels nf
        (config.n_fft / 2 + 1))
        (Array.mkArray (config.n_mels * nf) (0 : ℚ))).size = config.n_mels * nf := by
    intro mb nf l
    rw [foldl_size_eq _ (fun a x => melProcessFrame_size ops _ _ mb _ _ _ _ nf _ a x) l]
    exact Array.size_mkArray _ _
  split_ifs
  all_goals
    first
    | (rw [foldl_size_eq (melNormalizeRow ops.sqrt _)
          (fun a x => melNormalizeRow_size _ _ a x), Array.size_map]
       exact hfill _ _ _)
    | (rw [foldl_size_eq (melNormalizeRow ops.sqrt _)
          (fun a x => melNormalizeRow_size _ _ a x)]
       exact hfill _ _ _)
    | (rw [Array.size_map]
       exact hfill _ _ _)
    | exact hfill _ _ _

/-- C3 counterexample: with the default configuration (`n_fft = 512`,
`hop_length = 160`), an empty buffer yields 1 frame (not the claimed 0), and
a 400-sample buffer (shorter than one FFT window) yields 3 frames (not the
claimed 0 or 1): reflect-padding adds a full `n_fft` window. -/
theorem mel_num_frames_small_counterexample :
    mel_num_frames 0 melConfigDefault = 1 ∧ mel_num_frames 0 melConfigDefault ≠ 0
    ∧ mel_num_frames 400 melConfigDefault = 3 := by decide

/-- C3 (amended): `mel_num_frames` matches the frame count actually produced
by `mel_spectrogram` for every buffer length and configuration (the output
has exactly `n_mels * mel_num_frames` entries); for `n` smaller than one FFT
window (even `n_fft`) the count is `n / hop_length + 1` — in particular 1,
not 0, for an empty buffer — because reflect-padding adds `n_fft` samples. -/
theorem mel_num_frames_matches :
    (∀ (ops : F32Ops) (samples : List ℚ) (config : MelConfig),
        (mel_spectrogram ops samples config).size
          = config.n_mels * mel_num_frames samples.length config)
    ∧ (∀ (n : ℕ) (config : MelConfig), config.n_fft % 2 = 0 → n < config.n_fft →
        mel_num_frames n config = n / config.hop_length + 1) := by
  constructor
  · exact mel_spectrogram_size
  · intro n config h2 hlt
    simp only [mel_num_frames]
    have h : 2 * (config.n_fft / 2) = config.n_fft := by omega
    rw [h, if_pos (Nat.le_add_left _ _), Nat.add_sub_cancel]

/-- Witness for C3 (amended) at concrete inputs: the empty buffer and a
400-sample buffer with the default configuration. -/
theorem mel_num_frames_matches_witness :
    (mel_spectrogram f32OpsTrivial [] melConfigDefault).size
        = melConfigDefault.n_mels * mel_num_frames 0 melConfigDefault
    ∧ mel_num_frames 400 melConfigDefault = 400 / 160 + 1 :=
  ⟨by simpa using mel_num_frames_matches.1 f32OpsTrivial [] melConfigDefault,
   mel_num_frames_matches.2 400 melConfigDefault (by decide) (by decide)⟩

/-- C8: starting a recording session fails with an error whenever the app
status is not Idle (Recording, Transcribing, or any other active state), so
a second overlapping session is never started; a session is started (status
becomes Recording) exactly when the status is Idle. -/
theorem start_recording_only_when_idle :
    (∀ s : AppStatus, s ≠ AppStatus.Idle →
        ∃ e, do_start_recording s = Except.error e)
    ∧ do_start_recording AppStatus.Idle = Except.ok AppStatus.Recording := by
  constructor
  · intro s hs
    exact ⟨"Cannot start recording: app is not idle".data, by simp [do_start_recording, hs]⟩
  · simp [do_start_recording]

/-- Witness for C8: starting while Recording errors, starting while
Transcribing errors. -/
theorem start_recording_only_when_idle_witness :
    (∃ e, do_start_recording AppStatus.Recording = Except.error e)
    ∧ (∃ e, do_start_recording AppStatus.Transcribing = Except.error e) :=
  ⟨start_recording_only_when_idle.1 AppStatus.Recording (by decide),
   start_recording_only_when_idle.1 AppStatus.Transcribing (by decide)⟩

/-- C10: every vocabulary successfully produced by either loader has its
blank token as the last entry of the dense token table
(`blank_id = tokens.len() - 1`) and a vocabulary size equal to the table
size including the blank (`vocab_size = tokens.len()`). -/
theorem vocabulary_blank_last :
    (∀ (lines : List (List Char)) (v : Vocabulary), load_vocab_txt lines = some v →
        v.blank_id = v.tokens.length - 1 ∧ v.vocab_size = v.tokens.length)
    ∧ (∀ (j : Json) (v : Vocabulary), load_tokenizer_json j = some v →
        v.blank_id = v.tokens.length - 1 ∧ v.vocab_size = v.tokens.length) := by
  constructor
  · intro lines v h
    simp only [load_vocab_txt] at h
    split at h
    · exact absurd h (by simp)
    · rw [Option.some.injEq] at h
      subst h
      exact ⟨rfl, rfl⟩
  · intro j v h
    simp only [load_tokenizer_json] at h
    split at h
    · split at h
      · exact absurd h (by simp)
      · rw [Option.some.injEq] at h
        subst h
        exact ⟨rfl, rfl⟩
    · rw [Option.some.injEq] at h
      subst h
      exact ⟨rfl, rfl⟩

/-- Witness for C10: a two-line vocab.txt and a small tokenizer.json, both
yielding a blank-last vocabulary of size 2. -/
theorem vocabulary_blank_last_witness :
    ((⟨[['a'], ['x']], 1, 2⟩ : Vocabulary).blank_id
        = (⟨[['a'], ['x']], 1, 2⟩ : Vocabulary).tokens.length - 1
      ∧ (⟨[['a'], ['x']], 1, 2⟩ : Vocabulary).vocab_size
        = (⟨[['a'], ['x']], 1, 2⟩ : Vocabulary).tokens.length)
    ∧ ((⟨[['b'], ['y']], 1, 2⟩ : Vocabulary).blank_id
        = (⟨[['b'], ['y']], 1, 2⟩ : Vocabulary).tokens.length - 1
      ∧ (⟨[['b'], ['y']], 1, 2⟩ : Vocabulary).vocab_size
        = (⟨[['b'], ['y']], 1, 2⟩ : Vocabulary).tokens.length) :=
  ⟨vocabulary_blank_last.1 ["a 0".data, "x 1".data] ⟨[['a'], ['x']], 1, 2⟩ (by decide),
   vocabulary_blank_last.2
     (Json.obj [("model".data,
        Json.obj [("vocab".data, Json.arr [Json.str ['b'], Json.str ['y']])])])
     ⟨[['b'], ['y']], 1, 2⟩ (by decide)⟩

/-- C6: `append_chunk_text` trims the chunk first and leaves the
accumulator unchanged when the trimmed chunk is empty; when the non-empty
accumulator ends in `.`, `!` or `?` and the trimmed chunk starts with a
lowercase letter, the trailing punctuation is removed before a single
separating space and the chunk; otherwise the chunk is appended after a
single space with no removal (an empty accumulator just receives the
trimmed chunk); in particular appending "and more" to "Hello there."
yields "Hello there and more", and appending "And more" yields
"Hello there. And more". -/
theorem append_chunk_text_spec :
    (∀ accumulated new_chunk : List Char, rustTrim new_chunk = [] →
        append_chunk_text accumulated new_chunk = accumulated)
    ∧ (∀ accumulated new_chunk : List Char, accumulated ≠ [] →
        (accumulated.getLast? = some '.' ∨ accumulated.getLast? = some '!'
          ∨ accumulated.getLast? = some '?') →
        (∃ c rest, rustTrim new_chunk = c :: rest ∧ c.isLower = true) →
        append_chunk_text accumulated new_chunk
          = accumulated.dropLast ++ ' ' :: rustTrim new_chunk)
    ∧ (∀ accumulated new_chunk : List Char, accumulated ≠ [] → rustTrim new_chunk ≠ [] →
        ¬((accumulated.getLast? = some '.' ∨ accumulated.getLast? = some '!'
            ∨ accumulated.getLast? = some '?')
          ∧ ∃ c rest, rustTrim new_chunk = c :: rest ∧ c.isLower = true) →
        append_chunk_text accumulated new_chunk
          = accumulated ++ ' ' :: rustTrim new_chunk)
    ∧ (∀ new_chunk : List Char, append_chunk_text [] new_chunk = rustTrim new_chunk)
    ∧ append_chunk_text "Hello there.".data "and more".data = "Hello there and more".data
    ∧ append_chunk_text "Hello there.".data "And more".data = "Hello there. And more".data := by
  refine ⟨?_, ?_, ?_, ?_, by decide, by decide⟩
  · intro a nc h
    simp [append_chunk_text, h]
  · intro a nc ha hp hl
    obtain ⟨c, rest, hcn, hcl⟩ := hl
    rcases hp with h | h | h <;> simp [append_chunk_text, hcn, hcl, h, ha]
  · intro a nc ha hnc hn
    cases hcn : rustTrim nc with
    | nil => exact absurd hcn hnc
    | cons c rest =>
      by_cases hp : a.getLast? = some '.' ∨ a.getLast? = some '!' ∨ a.getLast? = some '?'
      · have hcl : c.isLower = false := by
          rcases Bool.eq_false_or_eq_true c.isLower with hh | hh
          · exact absurd ⟨hp, c, rest, hcn, hh⟩ hn
          · exact hh
        rcases hp with h | h | h <;> simp [append_chunk_text, hcn, hcl, h, ha]
      · push_neg at hp
        obtain ⟨h1, h2, h3⟩ := hp
        simp [append_chunk_text, hcn, h1, h2, h3, ha]
  · intro nc
    cases hcn : rustTrim nc with
    | nil => simp [append_chunk_text, hcn]
    | cons c rest => simp [append_chunk_text, hcn]

/-- Witness for C6: applying the punctuation-smoothing case at the spec's
example input. -/
theorem append_chunk_text_spec_witness :
    append_chunk_text "Hello there.".data "and more".data
      = "Hello there.".data.dropLast ++ ' ' :: rustTrim "and more".data :=
  append_chunk_text_spec.2.1 "Hello there.".data "and more".data (by decide)
    (by decide) ⟨'a', "nd more".data, by decide, by decide⟩

/-- The arg-max fold only returns the running best or a later index. -/
theorem argmaxGo_lt :
    ∀ (xs : List ℚ) (best : ℕ) (bv : ℚ) (i : ℕ), best < i →
      argmaxGo best bv i xs < i + xs.length := by
  intro xs
  induction xs with
  | nil => intro best bv i h; simpa [argmaxGo] using h
  | cons x rest ih =>
    intro best bv i h
    rw [argmaxGo]
    split
    · have := ih i x (i + 1) (Nat.lt_succ_self i)
      simpa [Nat.add_assoc, Nat.add_comm 1 rest.length] using this
    · have := ih best bv (i + 1) (by omega)
      simpa [Nat.add_assoc, Nat.add_comm 1 rest.length] using this

/-- On a non-empty list the arg-max is a valid index. -/
theorem argmaxLast_lt (d : ℕ) (xs : List ℚ) (h : xs ≠ []) :
    argmaxLast d xs < xs.length := by
  cases xs with
  | nil => exact absurd rfl h
  | cons x rest =>
    have := argmaxGo_lt rest 0 x 1 Nat.one_pos
    simpa [argmaxLast, Nat.add_comm 1 rest.length] using this

/-- Bridge between the source decoder loop on flat logits and the spec's
collapse on the per-frame arg-max ids: when the flat buffer is exactly a
list of `V`-sized frames and the vocabulary table has at least `V` entries,
`ctc_go` computes the collapsed ids mapped through the token table (the
source's `token_id < tokens.len()` push guard never fires because every
arg-max is a valid index). -/
theorem ctc_go_eq_collapse (vocab : Vocabulary) (V : ℕ) (hV : V ≤ vocab.tokens.length) :
    ∀ (frames : List (List ℚ)) (prev : Option ℕ),
      (∀ f ∈ frames, f.length = V) →
      ctc_go vocab V prev frames.flatten frames.length
        = (ctcCollapse vocab.blank_id prev (frames.map (argmaxLast vocab.blank_id))).map
            (fun id => vocab.tokens.getD id []) := by
  intro frames
  induction frames with
  | nil => intro prev h; rfl
  | cons f fs ih =>
    intro prev h
    have hf : f.length = V := h f (List.mem_cons_self _ _)
    have hfs : ∀ g ∈ fs, g.length = V := fun g hg => h g (List.mem_cons_of_mem _ hg)
    have hlen : V ≤ (f ++ fs.flatten).length := by
      rw [List.length_append, hf]; omega
    have htake : (f ++ fs.flatten).take V = f := by
      rw [← hf]; exact List.take_left _ _
    have hdrop : (f ++ fs.flatten).drop V = fs.flatten := by
      rw [← hf]; exact List.drop_left _ _
    show ctc_go vocab V prev (f ++ fs.flatten) (fs.length + 1) = _
    rw [ctc_go]
    simp only [if_pos hlen, htake, hdrop, List.map_cons, ctcCollapse]
    by_cases hb : argmaxLast vocab.blank_id f = vocab.blank_id
    · simp only [if_pos hb]
      exact ih none hfs
    · simp only [if_neg hb]
      by_cases hp : some (argmaxLast vocab.blank_id f) = prev
      · simp only [if_pos hp]
        exact ih prev hfs
      · have hne : f ≠ [] := by
          intro hfe
          rw [hfe] at hb
          exact hb rfl
        have hlt : argmaxLast vocab.blank_id f < vocab.tokens.length := by
          have := argmaxLast_lt vocab.blank_id f hne
          omega
        simp only [if_neg hp, if_pos hlt, List.map_cons, List.singleton_append]
        rw [ih (some (argmaxLast vocab.blank_id f)) hfs]

/-- C5: `ctc_decode` implements exactly the spec's CTC collapsing (per-frame
arg-max, blank skipping with repeat-tracking reset, contiguous-repeat
dropping, token concatenation, word-boundary replacement, trim) on every
frame-aligned logits buffer; in particular three frames with the same
non-blank arg-max decode to one token, and the same frames separated by a
blank frame decode to two tokens. -/
theorem ctc_decode_matches_spec :
    (∀ (frames : List (List ℚ)) (vocab : Vocabulary) (V : ℕ),
        V ≤ vocab.tokens.length → (∀ f ∈ frames, f.length = V) →
        ctc_decode frames.flatten frames.length V vocab = ctcDecodeSpec frames vocab)
    ∧ ctc_decode ([1, 0, 0] ++ [1, 0, 0] ++ [1, 0, 0] : List ℚ) 3 3 vocabAB = ['a']
    ∧ ctc_decode ([1, 0, 0] ++ [0, 0, 1] ++ [1, 0, 0] : List ℚ) 3 3 vocabAB
        = ['a', 'a'] := by
  refine ⟨?_, by decide, by decide⟩
  intro frames vocab V hV hf
  unfold ctc_decode ctcDecodeSpec
  rw [ctc_go_eq_collapse vocab V hV frames none hf]

/-- Witness for C5: the refinement applied to a concrete two-frame buffer. -/
theorem ctc_decode_matches_spec_witness :
    ctc_decode ([[(1 : ℚ), 0, 0], [0, 0, 1]].flatten)
        ([[(1 : ℚ), 0, 0], [0, 0, 1]].length) 3 vocabAB
      = ctcDecodeSpec [[(1 : ℚ), 0, 0], [0, 0, 1]] vocabAB :=
  ctc_decode_matches_spec.1 [[(1 : ℚ), 0, 0], [0, 0, 1]] vocabAB 3 (by decide) (by decide)

/-- Collapsing distributes over append through the repeat-tracking state. -/
theorem ctcCollapse_append (blank : ℕ) :
    ∀ (xs ys : List ℕ) (prev : Option ℕ),
      ctcCollapse blank prev (xs ++ ys)
        = ctcCollapse blank prev xs
          ++ ctcCollapse blank (stateAfter blank prev xs) ys := by
  intro xs
  induction xs with
  | nil => intro ys prev; rfl
  | cons x xs ih =>
    intro ys prev
    simp only [List.cons_append, ctcCollapse, stateAfter, List.append_eq]
    by_cases hb : x = blank
    · simp only [if_pos hb]
      exact ih ys none
    · by_cases hp : some x = prev
      · simp only [if_neg hb, if_pos hp]
        have : stateAfter blank (some x) xs = stateAfter blank prev xs := by rw [hp]
        rw [ih ys prev, ← this, hp]
      · simp only [if_neg hb, if_neg hp, List.cons_append]
        rw [ih ys (some x)]

/-- The repeat-tracking state after appending one id is determined by that
id alone. -/
theorem stateAfter_concat (blank : ℕ) :
    ∀ (xs : List ℕ) (prev : Option ℕ) (x : ℕ),
      stateAfter blank prev (xs ++ [x]) = if x = blank then none else some x := by
  intro xs
  induction xs with
  | nil => intro prev x; rfl
  | cons y ys ih =>
    intro prev x
    simp only [List.cons_append, stateAfter]
    exact ih _ x

/-- A non-`none` repeat-tracking state from a fresh start names the last id
of the list, which is non-blank. -/
theorem stateAfter_none_last (blank : ℕ) (xs : List ℕ) (a : ℕ)
    (h : stateAfter blank none xs = some a) : xs.getLast? = some a ∧ a ≠ blank := by
  rcases List.eq_nil_or_concat xs with rfl | ⟨ys, x, rfl⟩
  · exact absurd h (by simp [stateAfter])
  · simp only [List.concat_eq_append] at h ⊢
    rw [stateAfter_concat] at h
    by_cases hb : x = blank
    · rw [if_pos hb] at h
      exact absurd h (by simp)
    · rw [if_neg hb] at h
      obtain rfl : x = a := Option.some.inj h
      exact ⟨List.getLast?_concat _, hb⟩

/-- Collapsing is insensitive to the incoming repeat-tracking state as long
as that state does not name the first (non-blank) id of the list. -/
theorem ctcCollapse_head_reset (blank : ℕ) (p : Option ℕ) :
    ∀ (ys : List ℕ), (∀ b, ys.head? = some b → b ≠ blank → p ≠ some b) →
      ctcCollapse blank p ys = ctcCollapse blank none ys := by
  intro ys h
  cases ys with
  | nil => rfl
  | cons y ys2 =>
    simp only [ctcCollapse]
    by_cases hb : y = blank
    · simp [hb]
    · have hp : some y ≠ p := fun hh => h y rfl hb hh.symm
      rw [if_neg hb, if_neg hb, if_neg hp, if_neg (by simp : ¬ some y = (none : Option ℕ))]

/-- Inserting a blank id is invisible to collapsing unless it separates two
equal non-blank ids. -/
theorem ctcCollapse_insert_blank (blank : ℕ) (xs ys : List ℕ)
    (h : ∀ a, xs.getLast? = some a → ∀ b, ys.head? = some b → a = b → a = blank) :
    ctcCollapse blank none (xs ++ blank :: ys) = ctcCollapse blank none (xs ++ ys) := by
  rw [ctcCollapse_append, ctcCollapse_append]
  congr 1
  have hstep : ctcCollapse blank (stateAfter blank none xs) (blank :: ys)
      = ctcCollapse blank none ys := by
    simp [ctcCollapse]
  rw [hstep]
  refine (ctcCollapse_head_reset blank (stateAfter blank none xs) ys ?_).symm
  intro b hb hnb hpb
  obtain ⟨hl, hna⟩ := stateAfter_none_last blank xs b hpb
  exact hna (h b hl b hb rfl)

/-- C4 counterexample: inserting a frame whose arg-max is the blank id
between two frames with the same non-blank arg-max changes the decoded
text — `[A, A]` decodes to one token but `[A, blank, A]` decodes to the
token twice, because the intervening blank resets repeat tracking. -/
theorem ctc_blank_insertion_counterexample :
    ctc_decode ([1, 0, 0] ++ ([0, 0, 1] ++ [1, 0, 0]) : List ℚ) 3 3 vocabAB
      ≠ ctc_decode ([1, 0, 0] ++ [1, 0, 0] : List ℚ) 2 3 vocabAB := by decide

/-- C4 (amended): inserting an extra frame whose arg-max is `blank_id` at
any position of a frame-aligned logits sequence leaves the text returned by
`ctc_decode` unchanged, PROVIDED the insertion position does not lie
strictly between two frames whose arg-maxes are equal and non-blank (at
such a position the blank resets repeat tracking and the repeated token is
emitted twice). -/
theorem ctc_blank_insertion_amended :
    ∀ (pre post : List (List ℚ)) (bf : List ℚ) (vocab : Vocabulary) (V : ℕ),
      V ≤ vocab.tokens.length →
      (∀ f ∈ pre, f.length = V) → (∀ f ∈ post, f.length = V) → bf.length = V →
      argmaxLast vocab.blank_id bf = vocab.blank_id →
      (∀ fa fb, pre.getLast? = some fa → post.head? = some fb →
          argmaxLast vocab.blank_id fa = argmaxLast vocab.blank_id fb →
          argmaxLast vocab.blank_id fa = vocab.blank_id) →
      ctc_decode (pre ++ bf :: post).flatten (pre.length + 1 + post.length) V vocab
        = ctc_decode (pre ++ post).flatten (pre.length + post.length) V vocab := by
  intro pre post bf vocab V hV hpre hpost hbf hb hcond
  have hall1 : ∀ f ∈ pre ++ bf :: post, f.length = V := by
    intro f hf
    rcases List.mem_append.mp hf with hm | hm
    · exact hpre f hm
    · rcases List.mem_cons.mp hm with rfl | hm
      · exact hbf
      · exact hpost f hm
  have hall2 : ∀ f ∈ pre ++ post, f.length = V := by
    intro f hf
    rcases List.mem_append.mp hf with hm | hm
    exacts [hpre f hm, hpost f hm]
  have hl1 : pre.length + 1 + post.length = (pre ++ bf :: post).length := by
    simp
    omega
  have hl2 : pre.length + post.length = (pre ++ post).length := (List.length_append _ _).symm
  unfold ctc_decode
  rw [hl1, hl2, ctc_go_eq_collapse vocab V hV (pre ++ bf :: post) none hall1,
    ctc_go_eq_collapse vocab V hV (pre ++ post) none hall2]
  have hmap1 : (pre ++ bf :: post).map (argmaxLast vocab.blank_id)
      = pre.map (argmaxLast vocab.blank_id)
        ++ vocab.blank_id :: post.map (argmaxLast vocab.blank_id) := by
    simp [hb]
  have hmap2 : (pre ++ post).map (argmaxLast vocab.blank_id)
      = pre.map (argmaxLast vocab.blank_id) ++ post.map (argmaxLast vocab.blank_id) := by
    simp
  rw [hmap1, hmap2, ctcCollapse_insert_blank]
  intro a hla b hhb hab
  rw [List.getLast?_map] at hla
  rw [List.head?_map] at hhb
  obtain ⟨fa, hfa, rfl⟩ := Option.map_eq_some'.mp hla
  obtain ⟨fb, hfb, rfl⟩ := Option.map_eq_some'.mp hhb
  exact hcond fa fb hfa hfb hab

/-- Witness for C4 (amended): appending a blank frame at the end of a
one-frame sequence leaves the decode unchanged. -/
theorem ctc_blank_insertion_amended_witness :
    ctc_decode ([[(1 : ℚ), 0, 0]] ++ [0, 0, 1] :: ([] : List (List ℚ))).flatten
        ([[(1 : ℚ), 0, 0]].length + 1 + ([] : List (List ℚ)).length) 3 vocabAB
      = ctc_decode ([[(1 : ℚ), 0, 0]] ++ ([] : List (List ℚ))).flatten
        ([[(1 : ℚ), 0, 0]].length + ([] : List (List ℚ)).length) 3 vocabAB :=
  ctc_blank_insertion_amended [[(1 : ℚ), 0, 0]] [] [0, 0, 1] vocabAB 3 (by decide)
    (by decide) (by decide) (by decide) (by decide)
    (fun fa fb h1 h2 h3 => by simp at h2)

/-- With a zero vocabulary size every frame is empty, its arg-max defaults
to blank, and nothing is ever emitted. -/
theorem ctc_go_zero_vsize (vocab : Vocabulary) :
    ∀ (steps : ℕ) (prev : Option ℕ) (logits : List ℚ),
      ctc_go vocab 0 prev logits steps = [] := by
  intro steps
  induction steps with
  | zero => intro prev logits; rfl
  | succ n ih =>
    intro prev logits
    rw [ctc_go]
    simp [argmaxLast, ih]

/-- The decode loop stops at the first incomplete frame: its result equals
the result for the number of complete frames actually present. -/
theorem ctc_go_min (vocab : Vocabulary) (V : ℕ) (hV : 0 < V) :
    ∀ (steps : ℕ) (prev : Option ℕ) (logits : List ℚ),
      ctc_go vocab V prev logits steps
        = ctc_go vocab V prev logits (min steps (logits.length / V)) := by
  intro steps
  induction steps with
  | zero => intro prev logits; simp
  | succ n ih =>
    intro prev logits
    by_cases hlen : V ≤ logits.length
    · have hq : logits.length / V = (logits.length - V) / V + 1 := Nat.div_eq_sub_div hV hlen
      have hdl : (logits.drop V).length = logits.length - V := by simp
      have hmin : min (n + 1) (logits.length / V)
          = min n ((logits.length - V) / V) + 1 := by
        rw [hq]; omega
      rw [hmin, ctc_go, ctc_go]
      simp only [if_pos hlen]
      by_cases hb : argmaxLast vocab.blank_id (logits.take V) = vocab.blank_id
      · simp only [if_pos hb]
        rw [ih none (logits.drop V), hdl]
      · simp only [if_neg hb]
        by_cases hp : some (argmaxLast vocab.blank_id (logits.take V)) = prev
        · simp only [if_pos hp]
          rw [ih prev (logits.drop V), hdl]
        · simp only [if_neg hp]
          congr 1
          rw [ih (some (argmaxLast vocab.blank_id (logits.take V))) (logits.drop V), hdl]
    · have hz : logits.length / V = 0 := Nat.div_eq_of_lt (by omega)
      rw [hz, Nat.min_zero]
      simp [ctc_go, hlen]

/-- A non-blank token arg-max within a well-sized logits buffer always
emits (the arg-max is a valid index of the token table). -/
theorem tdtEmit_of_nonblank (vocab : Vocabulary) (logits : List ℚ)
    (hv : vocab.vocab_size ≤ vocab.tokens.length)
    (h3 : vocab.vocab_size ≤ logits.length)
    (hnb : tdtToken vocab logits ≠ vocab.blank_id) :
    tdtEmit vocab logits = true := by
  unfold tdtEmit
  rw [decide_eq_true_eq]
  refine ⟨hnb, ?_⟩
  unfold tdtToken at hnb ⊢
  have hne : logits.take vocab.vocab_size ≠ [] := by
    intro hT
    rw [hT] at hnb
    exact hnb rfl
  have hlt := argmaxLast_lt vocab.blank_id (logits.take vocab.vocab_size) hne
  rw [List.length_take] at hlt
  omega

/-- The TDT decode loop terminates for every oracle, encoder buffer and
cursor, provided the vocabulary invariant `vocab_size ≤ tokens.len()`
holds: the measure `11 * (frames left) + (cap headroom)` strictly decreases
at every iteration, because a same-frame emission raises the emission
counter towards the cap of 10 and reaching the cap forces the cursor to
advance. -/
theorem tdt_go_some (oracle : ℕ → List ℚ) (encoder_out : List ℚ)
    (encLen dim : ℕ) (vocab : Vocabulary)
    (hv : vocab.vocab_size ≤ vocab.tokens.length) :
    ∀ (fuel k t emitted : ℕ) (acc : List (List Char)),
      emitted ≤ 9 → 11 * (encLen - t) + (10 - emitted) < fuel →
      ∃ r, tdt_go oracle encoder_out encLen dim vocab fuel k t emitted acc = some r := by
  intro fuel
  induction fuel with
  | zero => intro k t emitted acc he hm; omega
  | succ n ih =>
    intro k t emitted acc he hm
    rw [tdt_go]
    by_cases h1 : t < encLen
    case neg => exact ⟨_, by rw [if_neg h1]⟩
    simp only [if_pos h1]
    by_cases h2 : t * dim + dim ≤ encoder_out.length
    case neg => exact ⟨_, by rw [if_neg h2]⟩
    simp only [if_pos h2]
    by_cases h3 : vocab.vocab_size ≤ (oracle k).length
    case neg => exact ⟨_, by rw [if_neg h3]⟩
    simp only [if_pos h3]
    by_cases h4 : 0 < tdtStep vocab (oracle k)
    · simp only [if_pos h4]
      exact ih (k + 1) (t + tdtStep vocab (oracle k)) 0 _ (by omega) (by omega)
    · simp only [if_neg h4]
      by_cases h5 : tdtToken vocab (oracle k) = vocab.blank_id
        ∨ 10 ≤ (if tdtEmit vocab (oracle k) = true then emitted + 1 else emitted)
      · simp only [if_pos h5]
        exact ih (k + 1) (t + 1) 0 _ (by omega) (by omega)
      · simp only [if_neg h5]
        push_neg at h5
        obtain ⟨hnb, hlt10⟩ := h5
        have hemit : tdtEmit vocab (oracle k) = true :=
          tdtEmit_of_nonblank vocab (oracle k) hv h3 hnb
        rw [if_pos hemit] at hlt10
        simp only [if_pos hemit]
        exact ih (k + 1) t (emitted + 1) _ (by omega) (by omega)

/-- When every decoder step's logits cover the vocabulary and the encoder
buffer covers all `encoded_length` frames, the loop can only exit through
its `t < encoded_length` check, so the final cursor reaches the encoder
length. -/
theorem tdt_go_reaches (oracle : ℕ → List ℚ) (encoder_out : List ℚ)
    (encLen dim : ℕ) (vocab : Vocabulary)
    (hwf1 : ∀ k, vocab.vocab_size ≤ (oracle k).length)
    (hwf2 : encLen * dim ≤ encoder_out.length) :
    ∀ (fuel k t emitted : ℕ) (acc : List (List Char)) (r : List (List Char) × ℕ),
      tdt_go oracle encoder_out encLen dim vocab fuel k t emitted acc = some r →
      encLen ≤ r.2 := by
  intro fuel
  induction fuel with
  | zero =>
    intro k t emitted acc r h
    exact absurd h (by rw [tdt_go]; simp)
  | succ n ih =>
    intro k t emitted acc r h
    rw [tdt_go] at h
    by_cases h1 : t < encLen
    · simp only [if_pos h1] at h
      have h2 : t * dim + dim ≤ encoder_out.length := by
        have hmul : (t + 1) * dim ≤ encLen * dim :=
          Nat.mul_le_mul (by omega) (Nat.le_refl dim)
        have : t * dim + dim = (t + 1) * dim := by ring
        omega
      simp only [if_pos h2] at h
      simp only [if_pos (hwf1 k)] at h
      repeat' split at h
      all_goals exact ih _ _ _ _ _ h
    · simp only [if_neg h1] at h
      obtain rfl : (acc, t) = r := Option.some.inj h
      simpa using Nat.le_of_not_lt h1

/-- C9: shape mismatches abort cleanly.  (a) `ctc_decode` stops at the
first incomplete frame: for every logits buffer, step count and vocabulary
size its output equals the output on the complete frames only (the
truncation `min time_steps (len / vocab_size)`), so it never reads past the
buffer; (b) for every oracle behaviour (including logits smaller than the
vocabulary, where the loop breaks and returns the tokens emitted so far)
`tdt_decode` terminates with a successful `some`/`Ok` result, given the
loaded-vocabulary invariant `vocab_size ≤ tokens.len()`.  The embedding
accesses both buffers only through bounds-guarded `take`/`drop`, mirroring
the source's explicit `frame_end > len` and `len < vocab_size` guards. -/
theorem decode_shape_mismatch_safe :
    (∀ (logits : List ℚ) (time_steps vocab_size : ℕ) (vocab : Vocabulary),
        ctc_decode logits time_steps vocab_size vocab
          = ctc_decode logits (min time_steps (logits.length / vocab_size))
              vocab_size vocab)
    ∧ (∀ (oracle : ℕ → List ℚ) (encoder_out : List ℚ)
        (encoded_length encoder_dim : ℕ) (vocab : Vocabulary),
        vocab.vocab_size ≤ vocab.tokens.length →
        (tdt_decode oracle encoder_out encoded_length encoder_dim vocab).isSome
          = true) := by
  constructor
  · intro logits time_steps vocab_size vocab
    unfold ctc_decode
    rcases Nat.eq_zero_or_pos vocab_size with rfl | hpos
    · rw [ctc_go_zero_vsize, ctc_go_zero_vsize]
    · rw [ctc_go_min vocab vocab_size hpos time_steps none logits]
  · intro oracle encoder_out encoded_length encoder_dim vocab hv
    obtain ⟨r, hr⟩ := tdt_go_some oracle encoder_out encoded_length encoder_dim vocab hv
      (11 * encoded_length + 11) 0 0 0 [] (by omega) (by omega)
    unfold tdt_decode
    rw [hr]
    rfl

/-- Witness for C9: the transducer decode on a degenerate concrete setup
(logits shorter than useful, empty encoder buffer) still returns `some`. -/
theorem decode_shape_mismatch_safe_witness :
    (tdt_decode (fun _ => [0, 1]) [] 5 0 ⟨[['a'], ['x']], 1, 2⟩).isSome = true :=
  decode_shape_mismatch_safe.2 (fun _ => [0, 1]) [] 5 0 ⟨[['a'], ['x']], 1, 2⟩ (by decide)

/-- C2: for every finite `encoded_length`, every encoder buffer covering
its frames, and every sequence of decoder-step outputs whose logits cover
the vocabulary — including all-blank and non-blank-with-zero-duration
pathological sequences — the TDT decode loop terminates with its frame
cursor reaching `encoded_length`, because the emissions-per-frame cap of 10
forces the cursor to advance; the vocabulary invariant
`vocab_size ≤ tokens.len()` (established by both loaders) is what makes
every same-frame iteration count towards the cap. -/
theorem tdt_decode_terminates :
    ∀ (oracle : ℕ → List ℚ) (encoder_out : List ℚ)
      (encoded_length encoder_dim : ℕ) (vocab : Vocabulary),
      vocab.vocab_size ≤ vocab.tokens.length →
      (∀ k, vocab.vocab_size ≤ (oracle k).length) →
      encoded_length * encoder_dim ≤ encoder_out.length →
      ∃ r : List (List Char) × ℕ,
        tdt_go oracle encoder_out encoded_length encoder_dim vocab
          (11 * encoded_length + 11) 0 0 0 [] = some r
        ∧ encoded_length ≤ r.2
        ∧ (tdt_decode oracle encoder_out encoded_length encoder_dim vocab).isSome
            = true := by
  intro oracle encoder_out encLen dim vocab hv hw1 hw2
  obtain ⟨r, hr⟩ := tdt_go_some oracle encoder_out encLen dim vocab hv
    (11 * encLen + 11) 0 0 0 [] (by omega) (by omega)
  refine ⟨r, hr, tdt_go_reaches oracle encoder_out encLen dim vocab hw1 hw2 _ _ _ _ _ _ hr, ?_⟩
  unfold tdt_decode
  rw [hr]
  rfl

/-- Witness for C2: a pathological all-blank oracle over 3 encoder frames
terminates with the cursor at the encoder length. -/
theorem tdt_decode_terminates_witness :
    ∃ r : List (List Char) × ℕ,
      tdt_go (fun _ => [0, 1]) [0, 0, 0] 3 1 ⟨[['a'], ['x']], 1, 2⟩
        (11 * 3 + 11) 0 0 0 [] = some r
      ∧ 3 ≤ r.2
      ∧ (tdt_decode (fun _ => [0, 1]) [0, 0, 0] 3 1 ⟨[['a'], ['x']], 1, 2⟩).isSome
          = true :=
  tdt_decode_terminates (fun _ => [0, 1]) [0, 0, 0] 3 1 ⟨[['a'], ['x']], 1, 2⟩
    (by decide) (fun k => by show (2 : ℕ) ≤ 2; decide) (by decide)
